import Mathlib

/-
Verification of the thermoelectric transport engine
(`thermoelectricProperties.py`) against its natural-language
specification.  The Python class is shallowly embedded: energy-resolved
numpy arrays become lists of real numbers (exact real arithmetic stands
in for IEEE doubles), rational-only computations are stated over `ℚ` so
that witnesses can be evaluated, and the places where the source
explicitly branches on IEEE special values (`np.isinf`, `np.isnan`) use
a small extended-value type with `inf`, `-inf` and `nan` constructors.
Fallible code is embedded in `Except`.
-/

noncomputable section

namespace Thermo

/-! Physical constants of the class `thermoelectricProperties`. -/

/-- Reduced Planck constant in eV.s (class attribute `hBar`). -/
def hBar : ℝ := 6.582119e-16

/-- Boltzmann constant in eV/K (class attribute `kB`). -/
def kB : ℝ := 8.617330350e-5

/-- e to Coulomb unit change (class attribute `e2C`). -/
def e2C : ℝ := 1.6021765e-19

/-- Permittivity in vacuum F/m (class attribute `e0`). -/
def e0 : ℝ := 8.854187817e-12

/-! Numpy primitives used by the class, over an arbitrary field so the
same definitions serve the real-valued solver and the rational-valued
witnesses. -/

/-- `np.linspace(a, b, n, endpoint=True)`: `n` evenly spaced samples
`a + (b - a) * i / (n - 1)`.  For `n = 1` numpy returns `[a]`; the
formula agrees because `x / 0 = 0` in Lean fields. -/
def linspace {α : Type} [Field α] (a b : α) (n : ℕ) : List α :=
  (List.range n).map (fun (i : ℕ) => a + (b - a) * (i : α) / ((n : α) - 1))

/-- `np.trapz(ys, xs)`: trapezoidal rule over sample points `xs` with
values `ys`, i.e. the sum of `(x_{i+1} - x_i) * (y_i + y_{i+1}) / 2`. -/
def trapz : List ℝ → List ℝ → ℝ
  | y0 :: y1 :: ys, x0 :: x1 :: xs =>
      (x1 - x0) * (y0 + y1) / 2 + trapz (y1 :: ys) (x1 :: xs)
  | _, _ => 0

/-- Index scan of `np.argmin`: carry the current index, best index and
best value; a strictly smaller value replaces the best, so the first
occurrence of the minimum wins. -/
def argminAux : List ℝ → ℕ → ℕ → ℝ → ℕ
  | [], _, bi, _ => bi
  | v :: vs, i, bi, bv =>
      if v < bv then argminAux vs (i + 1) i v else argminAux vs (i + 1) bi bv

/-- `np.argmin` on a 1-D array: index of the first occurrence of the
minimum (`0` on the empty array). -/
def argmin : List ℝ → ℕ
  | [] => 0
  | v :: vs => argminAux vs 1 0 v

/-! `energyRange` (method `energyRange`, the energy-grid constructor).
The method only calls `np.linspace` and `np.expand_dims`; neither can
raise for a natural-number sample count, so the `Except` embedding
always succeeds. -/

/-- Method `energyRange`: `np.expand_dims(np.linspace(emin, emax, n), 0)`,
a 1 × n array.  No validation is performed in the source, hence the
result is always `Except.ok`. -/
def energyRange (emin emax : ℚ) (n : ℕ) : Except String (List (List ℚ)) :=
  Except.ok [linspace emin emax n]

/-! `fermiDistribution` (Fermi-Dirac occupation and its derivative),
embedded per energy sample. -/

/-- The intermediate `xi = np.exp((E - Ef) / T / kB)` of
`fermiDistribution`. -/
def xiVal (E Ef T : ℝ) : ℝ := Real.exp ((E - Ef) / T / kB)

/-- Method `fermiDistribution` at one energy sample: returns the pair
`(fermiDirac, dfdE)` with `fermiDirac = 1 / (xi + 1)` and
`dfdE = -1 * xi / (1 + xi)^2 / T / kB`. -/
def fermiDistribution (E Ef T : ℝ) : ℝ × ℝ :=
  (1 / (xiVal E Ef T + 1), -1 * xiVal E Ef T / (1 + xiVal E Ef T) ^ 2 / T / kB)

/-! `fermiLevelSelfConsistent`. -/

/-- One row (one temperature index) of the body of
`fermiLevelSelfConsistent`: `np.trapz(np.multiply(DoS, f), energyRange)`
for a single candidate Fermi level. -/
def concIntegral (grid DoS : List ℝ) (Ef T : ℝ) : ℝ :=
  trapz (List.zipWith (fun d E => d * (fermiDistribution E Ef T).1) DoS grid) grid

/-- The per-temperature work of `fermiLevelSelfConsistent`: the candidate
row `np.linspace(g - 0.2, g + 0.2, 4000)`, the row of concentration
integrals `result_array[j, :]`, the selected column
`min_idx[j] = np.argmin(np.abs(cc - np.abs(result_array[j, :])))` and the
returned pair `(fermi[j, min_idx[j]], result_array[j, min_idx[j]])`. -/
def fermiSolveRow (grid DoS : List ℝ) (cc T g : ℝ) : ℝ × ℝ :=
  let cands := linspace (g - 0.2) (g + 0.2) 4000
  let ints := cands.map (fun Ef => concIntegral grid DoS Ef T)
  let idx := argmin (ints.map (fun I => abs (cc - abs I)))
  (cands.getD idx 0, ints.getD idx 0)

/-- Method `fermiLevelSelfConsistent`: per temperature index `j` (with
carrier concentration `CC[j]` and analytic guess `guess[j]`) run the
dense candidate search and return `[Ef, n]`, the selected Fermi levels
and their realized concentrations. -/
def fermiLevelSelfConsistent (CC Temp grid DoS guess : List ℝ) :
    List ℝ × List ℝ :=
  let rows := (List.zip Temp (List.zip CC guess)).map
    (fun p => fermiSolveRow grid DoS p.2.1 p.1 p.2.2)
  (rows.map Prod.fst, rows.map Prod.snd)

/-- Whether an `Except` computation finished normally. -/
def exceptOk {ε α : Type} : Except ε α → Bool
  | Except.ok _ => true
  | Except.error _ => false

/-! Spec-side formulation of the self-consistent search, following the
words of the specification: the candidate window of 4000 uniformly
spaced Fermi levels around the initial guess, the concentration
integral at every candidate, and the index of the (earliest) candidate
minimizing the absolute difference between that integral and the target
concentration.  The code-side selection (`fermiSolveRow`) instead
minimizes the distance between the target and the absolute value of the
integral; the refinement theorem for claim C1 shows the two coincide
for nonnegative DoS tabulations on a monotone grid. -/

/-- Spec: the dense candidate set of Fermi levels centered on the
initial guess, `±0.2` eV over `4000` points. -/
def specCandidates (g : ℝ) : List ℝ := linspace (g - 0.2) (g + 0.2) 4000

/-- Spec: the trapezoidal concentration integral at every candidate. -/
def specIntegrals (grid DoS : List ℝ) (T g : ℝ) : List ℝ :=
  (specCandidates g).map (fun Ef => concIntegral grid DoS Ef T)

/-- Spec: the earliest candidate index minimizing
the distance between the candidate integral and the target
concentration. -/
def specSelectedIdx (grid DoS : List ℝ) (T g cc : ℝ) : ℕ :=
  argmin ((specIntegrals grid DoS T g).map (fun I => abs (I - cc)))

/-! `matthiessen`.  The source divides by possibly-zero lifetimes
(`1. / arg`), sums the rates and inverts, then masks infinite results:
`tau[np.isinf(tau)] = 0`.  To keep those special values visible the
lifetimes are embedded in an extended-rational type with IEEE-style
`inf`, `-inf` and `nan`; finite values carry exact rationals. -/

/-- A float value as `matthiessen` sees it: a finite value, one of the
two infinities produced by division by zero, or `nan`. -/
inductive FQ where
  | num (q : ℚ)
  | inf
  | ninf
  | nan
deriving DecidableEq

/-- IEEE-style addition on extended values (finite addition is exact):
`nan` is absorbing and opposite infinities give `nan`. -/
def FQ.add : FQ → FQ → FQ
  | .nan, _ => .nan
  | _, .nan => .nan
  | .inf, .ninf => .nan
  | .ninf, .inf => .nan
  | .inf, _ => .inf
  | _, .inf => .inf
  | .ninf, _ => .ninf
  | _, .ninf => .ninf
  | .num a, .num b => .num (a + b)

/-- IEEE-style reciprocal `1. / x`: `1/0 = inf` (numpy's positive zero),
the reciprocal of either infinity is `0`, and `1/nan = nan`. -/
def FQ.rcp : FQ → FQ
  | .nan => .nan
  | .inf => .num 0
  | .ninf => .num 0
  | .num a => if a = 0 then .inf else .num (1 / a)

/-- `np.isinf`. -/
def FQ.isinf : FQ → Bool
  | .inf => true
  | .ninf => true
  | _ => false

/-- Whether a value is finite. -/
def FQ.isNum : FQ → Bool
  | .num _ => true
  | _ => false

/-- A finite value or `+inf`: the only shapes the reciprocals of finite
lifetimes can take, closed under the rate sum. -/
def FQ.numOrInf (v : FQ) : Prop := v.isNum = true ∨ v = FQ.inf

/-- One position of `matthiessen`:
`tau = 1. / sum([1. / arg for arg in args])` followed by the mask
`tau[np.isinf(tau)] = 0`. -/
def matthiessenS (args : List FQ) : FQ :=
  let s := (args.map FQ.rcp).foldl FQ.add (FQ.num 0)
  let tau := FQ.rcp s
  if tau.isinf then FQ.num 0 else tau

/-- Method `matthiessen`, elementwise over the common array length of
its arguments (numpy broadcasting requires equal lengths; positions past
an argument's end read the padding value `0`, which the scalar
combination sends to `0` exactly as a zero lifetime would). -/
def matthiessen (args : List (List FQ)) : List FQ :=
  let n := (args.headD []).length
  (List.range n).map (fun i => matthiessenS (args.map (fun a => a.getD i (FQ.num 0))))

/-! The ionized-impurity lifetimes.  Their formulas can produce IEEE
special values (log of a non-positive argument, square root of a
negative, division by zero), and two of the three routines explicitly
mask `np.isnan` results to zero; the values are therefore embedded in an
extended-real type with IEEE-style `inf`, `-inf` and `nan`.  Finite
arithmetic is exact. -/

/-- A float value as the scattering formulas see it. -/
inductive FR where
  | real (x : ℝ)
  | inf
  | ninf
  | nan

/-- IEEE-style negation. -/
def FR.neg : FR → FR
  | .real a => .real (-a)
  | .inf => .ninf
  | .ninf => .inf
  | .nan => .nan

/-- IEEE-style addition: `nan` absorbs, opposite infinities give `nan`. -/
def FR.add : FR → FR → FR
  | .nan, _ => .nan
  | _, .nan => .nan
  | .inf, .ninf => .nan
  | .ninf, .inf => .nan
  | .inf, _ => .inf
  | _, .inf => .inf
  | .ninf, _ => .ninf
  | _, .ninf => .ninf
  | .real a, .real b => .real (a + b)

/-- IEEE-style subtraction. -/
def FR.sub (x y : FR) : FR := x.add y.neg

/-- IEEE-style multiplication: `inf * 0 = nan`, signs propagate. -/
def FR.mul : FR → FR → FR
  | .nan, _ => .nan
  | _, .nan => .nan
  | .inf, .inf => .inf
  | .inf, .ninf => .ninf
  | .ninf, .inf => .ninf
  | .ninf, .ninf => .inf
  | .inf, .real b => if b = 0 then .nan else if 0 < b then .inf else .ninf
  | .real a, .inf => if a = 0 then .nan else if 0 < a then .inf else .ninf
  | .ninf, .real b => if b = 0 then .nan else if 0 < b then .ninf else .inf
  | .real a, .ninf => if a = 0 then .nan else if 0 < a then .ninf else .inf
  | .real a, .real b => .real (a * b)

/-- IEEE-style division: `0/0` and `inf/inf` give `nan`, a nonzero
finite value over zero gives a signed infinity (numpy's positive zero),
finite over infinite gives zero. -/
def FR.div : FR → FR → FR
  | .nan, _ => .nan
  | _, .nan => .nan
  | .inf, .inf => .nan
  | .inf, .ninf => .nan
  | .ninf, .inf => .nan
  | .ninf, .ninf => .nan
  | .real _, .inf => .real 0
  | .real _, .ninf => .real 0
  | .inf, .real b => if b < 0 then .ninf else .inf
  | .ninf, .real b => if b < 0 then .inf else .ninf
  | .real a, .real b =>
      if b = 0 then (if a = 0 then .nan else if 0 < a then .inf else .ninf)
      else .real (a / b)

/-- `np.sqrt`: negative arguments give `nan`. -/
def FR.sqrt : FR → FR
  | .nan => .nan
  | .inf => .inf
  | .ninf => .nan
  | .real a => if a < 0 then .nan else .real (Real.sqrt a)

/-- `np.log`: negative arguments give `nan`, `log 0 = -inf`. -/
def FR.log : FR → FR
  | .nan => .nan
  | .inf => .inf
  | .ninf => .nan
  | .real a => if a < 0 then .nan else if a = 0 then .ninf else .real (Real.log a)

/-- Elementwise square `x**2`. -/
def FR.sq (x : FR) : FR := x.mul x

/-- Elementwise float power with a positive non-integer exponent (the
sources use `**(3/2)` and `**(1/3)`): negative bases give `nan`. -/
def FR.powR (x : FR) (e : ℝ) : FR :=
  match x with
  | .nan => .nan
  | .inf => .inf
  | .ninf => .nan
  | .real a => if a < 0 then .nan else .real (a ^ e)

/-- `np.isnan`. -/
def FR.isNan : FR → Bool
  | .nan => true
  | _ => false

/-- A finite nonzero value or one of the infinities: the shapes a chain
of divisions starting from a nonzero constant can take.  Excludes
`nan`. -/
def FR.regular (x : FR) : Prop :=
  (∃ a, x = FR.real a ∧ a ≠ 0) ∨ x = FR.inf ∨ x = FR.ninf

/-- Method `tau_Screened_Coulomb` before its `np.isnan` mask, per
energy sample: `g = 8*m_c*LD**2*E/hBar**2/e2C`,
`var_tmp = log(1+g) - g/(1+g)`,
`tau = 16*pi*sqrt(2*m_c)*(4*pi*dielectric*e0)**2/N/var_tmp*E**(3/2)/e2C**(5/2)`. -/
def tau_Screened_Coulomb_raw (dielectric : ℝ) (E m_c LD N : FR) : FR :=
  let g := ((((FR.real 8).mul m_c).mul LD.sq).mul E).div
    (FR.real (hBar ^ 2)) |>.div (FR.real e2C)
  let var_tmp := (FR.log ((FR.real 1).add g)).sub (g.div ((FR.real 1).add g))
  ((((((FR.real (16 * Real.pi)).mul (FR.sqrt ((FR.real 2).mul m_c))).mul
      (FR.real ((4 * Real.pi * dielectric * e0) ^ 2))).div N).div var_tmp).mul
      (E.powR (3 / 2))).div (FR.real (e2C ^ ((5 : ℝ) / 2)))

/-- Method `tau_Screened_Coulomb`: the raw formula with
`tau[np.isnan(tau)] = 0` applied. -/
def tau_Screened_Coulomb (dielectric : ℝ) (E m_c LD N : FR) : FR :=
  if (tau_Screened_Coulomb_raw dielectric E m_c LD N).isNan then FR.real 0
  else tau_Screened_Coulomb_raw dielectric E m_c LD N

/-- Method `tau_Unscreened_Coulomb` before its `np.isnan` mask:
`g = 4*pi*(4*pi*dielectric*e0)*E/N**(1/3)/e2C`,
`var_tmp = log(1+g**2)`, same `tau` prefactor as the screened form. -/
def tau_Unscreened_Coulomb_raw (dielectric : ℝ) (E m_c N : FR) : FR :=
  let g := (((FR.real (4 * Real.pi * (4 * Real.pi * dielectric * e0))).mul E).div
    (N.powR (1 / 3))).div (FR.real e2C)
  let var_tmp := FR.log ((FR.real 1).add g.sq)
  ((((((FR.real (16 * Real.pi)).mul (FR.sqrt ((FR.real 2).mul m_c))).mul
      (FR.real ((4 * Real.pi * dielectric * e0) ^ 2))).div N).div var_tmp).mul
      (E.powR (3 / 2))).div (FR.real (e2C ^ ((5 : ℝ) / 2)))

/-- Method `tau_Unscreened_Coulomb`: the raw formula with
`tau[np.isnan(tau)] = 0` applied. -/
def tau_Unscreened_Coulomb (dielectric : ℝ) (E m_c N : FR) : FR :=
  if (tau_Unscreened_Coulomb_raw dielectric E m_c N).isNan then FR.real 0
  else tau_Unscreened_Coulomb_raw dielectric E m_c N

/-- Method `tau_Strongly_Screened_Coulomb`: no mask in the source;
`tau = hBar/N/pi/D/(LD**2/(4*pi*dielectric*e0))**2*1/e2C**2`. -/
def tau_Strongly_Screened_Coulomb (dielectric : ℝ) (D LD N : FR) : FR :=
  (((((((FR.real hBar).div N).div (FR.real Real.pi)).div D).div
      ((LD.sq.div (FR.real (4 * Real.pi * dielectric * e0))).sq)).mul
      (FR.real 1)).div (FR.real (e2C ^ 2)))

/-! `electricalProperties` (the transport-coefficient integrals),
embedded for one temperature row; every array operation is elementwise
over the shared energy grid. -/

/-- The fixed-schema record returned by `electricalProperties` (the
source returns the list `[Sigma, S, PF, ke, delta_1, delta_2, Lorenz]`;
the unused `delta_0` of the source is the un-normalized first moment and
is dropped there as well). -/
structure TransportCoefficients where
  Sigma : ℝ
  S : ℝ
  PF : ℝ
  ke : ℝ
  delta_1 : ℝ
  delta_2 : ℝ
  Lorenz : ℝ

/-- Method `electricalProperties`: `X = DoS * vg**2 * dfdE`,
`Y = (E - Ef) * X`, `Z = (E - Ef) * Y`, then the trapezoidal moment
integrals and the coefficient formulas exactly as in the source. -/
def electricalProperties (E DoS vg : List ℝ) (Ef : ℝ) (dfdE : List ℝ)
    (Temp : ℝ) (tau : List ℝ) : TransportCoefficients :=
  let X := List.zipWith (fun p df => p * df)
    (List.zipWith (fun d v => d * v ^ 2) DoS vg) dfdE
  let Y := List.zipWith (fun e x => (e - Ef) * x) E X
  let Z := List.zipWith (fun e y => (e - Ef) * y) E Y
  let intX := trapz (List.zipWith (fun x t => x * t) X tau) E
  let intY := trapz (List.zipWith (fun y t => y * t) Y tau) E
  let intZ := trapz (List.zipWith (fun z t => z * t) Z tau) E
  let intXE := trapz (List.zipWith (fun xt e => xt * e)
    (List.zipWith (fun x t => x * t) X tau) E) E
  let intXE2 := trapz (List.zipWith (fun xt e => xt * e ^ 2)
    (List.zipWith (fun x t => x * t) X tau) E) E
  let Sigma := -1 * intX / 3 * e2C
  let S := -1 * intY / intX / Temp
  let PF := Sigma * S ^ 2
  let ke := -1 * (intZ - intY ^ 2 / intX) / Temp / 3 * e2C
  let delta_1 := intXE / intX
  let delta_2 := intXE2 / intX
  let Lorenz := (delta_2 - delta_1 ^ 2) / Temp / Temp
  ⟨Sigma, S, PF, ke, delta_1, delta_2, Lorenz⟩

/-! Spec-side formulation of the transport integrals, following the
words of the specification: `X(E) = DoS·vg²·df/dE`, `Y(E) = (E-Ef)·X`,
`Z(E) = (E-Ef)·Y`, and the trapezoidal moments `∫W·τ dE`, `∫W·τ·E dE`,
`∫W·τ·E² dE` of an energy-resolved weight `W`. -/

/-- Spec: `X(E) = DoS·v_g²·df/dE`. -/
def specX (DoS vg dfdE : List ℝ) : List ℝ :=
  List.zipWith (fun p df => p * df)
    (List.zipWith (fun d v => d * v ^ 2) DoS vg) dfdE

/-- Spec: `Y(E) = (E - Ef)·X(E)`. -/
def specY (E : List ℝ) (Ef : ℝ) (DoS vg dfdE : List ℝ) : List ℝ :=
  List.zipWith (fun e x => (e - Ef) * x) E (specX DoS vg dfdE)

/-- Spec: `Z(E) = (E - Ef)·Y(E)`. -/
def specZ (E : List ℝ) (Ef : ℝ) (DoS vg dfdE : List ℝ) : List ℝ :=
  List.zipWith (fun e y => (e - Ef) * y) E (specY E Ef DoS vg dfdE)

/-- Spec: the trapezoidal integral `∫W·τ dE` over the grid. -/
def intTau (W tau E : List ℝ) : ℝ :=
  trapz (List.zipWith (fun w t => w * t) W tau) E

/-- Spec: the trapezoidal first energy moment `∫W·τ·E dE`. -/
def intTauE (W tau E : List ℝ) : ℝ :=
  trapz (List.zipWith (fun wt e => wt * e)
    (List.zipWith (fun w t => w * t) W tau) E) E

/-- Spec: the trapezoidal second energy moment `∫W·τ·E² dE`. -/
def intTauE2 (W tau E : List ℝ) : ℝ :=
  trapz (List.zipWith (fun wt e => wt * e ^ 2)
    (List.zipWith (fun w t => w * t) W tau) E) E

/-! `tau_p` (acoustic deformation-potential phonon lifetime with the
nonparabolic correction), elementwise over the energy grid; `D` is the
density-of-states tabulation co-indexed with the grid. -/

/-- Method `tau_p`: the parabolic lifetime
`rho*vs**2*hBar/pi/kB/T/DA/DA*1e9/e2C/D` and the nonparabolic lifetime
`tau / nonparabolic_term`, returned as the pair `[tau, tau_p]`. -/
def tau_p (energyRange : List ℝ) (alpha Dv DA T vs : ℝ) (D : List ℝ)
    (rho : ℝ) : List ℝ × List ℝ :=
  let nonparabolic_term := energyRange.map (fun E =>
    (1 - ((alpha * E) / (1 + 2 * alpha * E) * (1 - Dv / DA))) ^ 2 -
      8 / 3 * (alpha * E) * (1 + alpha * E) / (1 + 2 * alpha * E) ^ 2 * (Dv / DA))
  let tau := D.map (fun d =>
    rho * vs ^ 2 * hBar / Real.pi / kB / T / DA / DA * 1e9 / e2C / d)
  (tau, List.zipWith (fun t c => t / c) tau nonparabolic_term)

/-! `filteringEffect`.  The body of its inner loop begins with
`tauInc = np.ones(len(Erange))`, but no name `Erange` is bound anywhere
in the method (the parameter is `energyRange`), so the first inner
iteration raises `NameError`.  The embedding keeps the two sweep ranges
(the only values that decide whether the body ever runs) and models the
nested loops in `Except`: each executed inner iteration is the failing
body; if no iteration ever runs, the trailing
`np.reshape(sMatrix, (n, m))` of the empty accumulator (`n = 0`)
returns a matrix with zero rows, embedded as `Except.ok []`. -/

/-- `np.arange(a, b, s)` over exact rationals: `⌈(b - a) / s⌉` samples
`a + i * s`. -/
def arange (a b s : ℚ) : List ℚ :=
  (List.range (⌈(b - a) / s⌉.toNat)).map (fun (i : ℕ) => a + (i : ℚ) * s)

/-- The `NameError` message raised by the loop body of
`filteringEffect`. -/
def nameErrorMsg : String := "NameError: name Erange is not defined"

/-- A `for _ in l:` loop whose body is the same fallible computation on
every iteration (the loop variables are never read before the failing
statement). -/
def loopExcept {α : Type} (l : List α) (body : Except String Unit) :
    Except String Unit :=
  match l with
  | [] => Except.ok ()
  | _ :: tl => body.bind (fun _ => loopExcept tl body)

/-- Method `filteringEffect`: the barrier sweep
`np.arange(0.1, U0, uIncrement)` and the lifetime sweep
`np.arange(tauIncrement, tau0, tauIncrement)`; every executed inner
body raises `NameError` on its first statement. -/
def filteringEffect (U0 tau0 uIncrement tauIncrement : ℚ) :
    Except String (List (List ℚ)) :=
  let uRange := arange (1 / 10) U0 uIncrement
  let tauRange := arange tauIncrement tau0 tauIncrement
  (loopExcept uRange
      (loopExcept tauRange (Except.error nameErrorMsg))).bind
    (fun _ => Except.ok [])

end Thermo

end

namespace Thermo

/-! Helper lemmas about `linspace` and `trapz`. -/

theorem linspace_length {α : Type} [Field α] (a b : α) (n : ℕ) :
    (linspace a b n).length = n := by
  rw [linspace, List.length_map, List.length_range]

theorem linspace_getD {α : Type} [Field α] (a b : α) {n i : ℕ} (h : i < n)
    (d : α) :
    (linspace a b n).getD i d = a + (b - a) * (i : α) / ((n : α) - 1) := by
  rw [List.getD_eq_getElem _ _ (by simpa [linspace_length] using h)]
  simp only [linspace, List.getElem_map, List.getElem_range]

theorem linspace_chain {α : Type} [LinearOrderedField α] (a b : α) (n : ℕ)
    (hab : a < b) :
    List.Chain' (fun x y => x < y) (linspace a b n) := by
  rw [List.chain'_iff_get]
  intro i hi
  rw [linspace_length] at hi
  have h1 : i < n := by omega
  have h2 : i + 1 < n := by omega
  have hd : (0 : α) < (n : α) - 1 := by
    have : (1 : α) < (n : α) := by exact_mod_cast Nat.one_lt_cast.mpr (by omega)
    linarith
  simp only [List.get_eq_getElem]
  rw [← List.getD_eq_getElem _ 0, ← List.getD_eq_getElem _ 0,
    linspace_getD a b h1, linspace_getD a b h2]
  push_cast
  have hba : (0 : α) < b - a := by linarith
  have hord : (b - a) * (i : α) / ((n : α) - 1) < (b - a) * ((i : α) + 1) / ((n : α) - 1) := by
    rw [div_lt_div_iff₀ hd hd]
    nlinarith
  linarith

theorem linspace_getD_last {α : Type} [LinearOrderedField α] (a b : α) {n : ℕ}
    (h : 2 ≤ n) :
    (linspace a b n).getD (n - 1) 0 = b := by
  rw [linspace_getD a b (by omega)]
  have hd : ((n : α) - 1) ≠ 0 := by
    have : (1 : α) < (n : α) := by exact_mod_cast Nat.one_lt_cast.mpr (by omega)
    linarith
  have hcast : ((n - 1 : ℕ) : α) = (n : α) - 1 := by
    have := Nat.cast_sub (R := α) (by omega : 1 ≤ n)
    simpa using this
  rw [hcast, mul_div_assoc, div_self hd, mul_one]
  ring

/-! Fermi-Dirac occupation facts shared by several claims. -/

theorem fermiDirac_pos (E Ef T : ℝ) : 0 < (fermiDistribution E Ef T).1 := by
  have hx : 0 < xiVal E Ef T := Real.exp_pos _
  show 0 < 1 / (xiVal E Ef T + 1)
  exact one_div_pos.mpr (by linarith)

theorem fermiDirac_lt_one (E Ef T : ℝ) : (fermiDistribution E Ef T).1 < 1 := by
  have hx : 0 < xiVal E Ef T := Real.exp_pos _
  show 1 / (xiVal E Ef T + 1) < 1
  rw [div_lt_one (by linarith)]
  linarith

/-! Trapezoid-rule facts. -/

theorem trapz_nil_left (xs : List ℝ) : trapz [] xs = 0 := by
  cases xs <;> rfl

theorem trapz_single_left (y : ℝ) (xs : List ℝ) : trapz [y] xs = 0 := by
  cases xs <;> rfl

theorem trapz_nil_right (ys : List ℝ) : trapz ys [] = 0 := by
  cases ys with
  | nil => rfl
  | cons y tl => cases tl <;> rfl

theorem trapz_single_right (ys : List ℝ) (x : ℝ) : trapz ys [x] = 0 := by
  cases ys with
  | nil => rfl
  | cons y tl => cases tl <;> rfl

theorem trapz_nonneg : ∀ (ys xs : List ℝ), (∀ y ∈ ys, 0 ≤ y) →
    List.Chain' (fun a b => a ≤ b) xs → 0 ≤ trapz ys xs
  | [], xs, _, _ => by rw [trapz_nil_left]
  | [_], xs, _, _ => by rw [trapz_single_left]
  | _ :: _ :: _, [], _, _ => by rw [trapz_nil_right]
  | _ :: _ :: _, [_], _, _ => by rw [trapz_single_right]
  | y0 :: y1 :: ys, x0 :: x1 :: xs, hy, hx => by
      have h01 : x0 ≤ x1 := (List.chain'_cons.mp hx).1
      have htail : List.Chain' (fun a b => a ≤ b) (x1 :: xs) :=
        (List.chain'_cons.mp hx).2
      have hy0 : 0 ≤ y0 := hy y0 (by simp)
      have hy1 : 0 ≤ y1 := hy y1 (by simp)
      have ih := trapz_nonneg (y1 :: ys) (x1 :: xs)
        (fun y hmem => hy y (List.mem_cons_of_mem _ hmem)) htail
      have hterm : 0 ≤ (x1 - x0) * (y0 + y1) / 2 := by
        apply div_nonneg _ (by norm_num)
        exact mul_nonneg (by linarith) (by linarith)
      show 0 ≤ (x1 - x0) * (y0 + y1) / 2 + trapz (y1 :: ys) (x1 :: xs)
      linarith

theorem exists_of_mem_zipWith {α β γ : Type} (f : α → β → γ) :
    ∀ (l₁ : List α) (l₂ : List β) (c : γ), c ∈ List.zipWith f l₁ l₂ →
      ∃ a, a ∈ l₁ ∧ ∃ b, b ∈ l₂ ∧ c = f a b
  | a :: l₁, b :: l₂, c, h => by
      rw [List.zipWith_cons_cons] at h
      rcases List.mem_cons.mp h with h | h
      · exact ⟨a, by simp, b, by simp, h⟩
      · obtain ⟨a', ha, b', hb, rfl⟩ := exists_of_mem_zipWith f l₁ l₂ c h
        exact ⟨a', List.mem_cons_of_mem _ ha, b', List.mem_cons_of_mem _ hb, rfl⟩
  | [], _, c, h => by simp at h
  | _ :: _, [], c, h => by simp at h

theorem getD_map_lt {α β : Type} (f : α → β) (l : List α) {i : ℕ}
    (hi : i < l.length) (d : β) (d' : α) :
    (l.map f).getD i d = f (l.getD i d') := by
  rw [List.getD_eq_getElem _ _ (by simpa using hi), List.getElem_map,
    List.getD_eq_getElem _ _ hi]

theorem getD_zip_lt {α β : Type} (l₁ : List α) (l₂ : List β) {i : ℕ}
    (h₁ : i < l₁.length) (h₂ : i < l₂.length) (d : α × β) (d₁ : α) (d₂ : β) :
    (List.zip l₁ l₂).getD i d = (l₁.getD i d₁, l₂.getD i d₂) := by
  rw [List.getD_eq_getElem _ _ (by simp only [List.length_zip]; omega),
    List.getElem_zip, List.getD_eq_getElem _ _ h₁,
    List.getD_eq_getElem _ _ h₂]

theorem concIntegral_nonneg (grid DoS : List ℝ) (Ef T : ℝ)
    (hDoS : ∀ d ∈ DoS, 0 ≤ d)
    (hgrid : List.Chain' (fun a b => a ≤ b) grid) :
    0 ≤ concIntegral grid DoS Ef T := by
  apply trapz_nonneg _ _ _ hgrid
  intro y hy
  obtain ⟨d, hd, E, _, rfl⟩ := exists_of_mem_zipWith _ _ _ _ hy
  exact mul_nonneg (hDoS d hd) (le_of_lt (fermiDirac_pos E Ef T))

/-- On a nonnegative DoS over a monotone grid, the code-side selection
criterion (distance of the target to the absolute value of the
integral) agrees with the spec-side criterion (distance of the integral
to the target), so one row of `fermiLevelSelfConsistent` returns the
spec-selected candidate and its realized concentration. -/
theorem fermiSolveRow_spec (grid DoS : List ℝ) (cc T g : ℝ)
    (hDoS : ∀ d ∈ DoS, 0 ≤ d)
    (hgrid : List.Chain' (fun a b => a ≤ b) grid) :
    fermiSolveRow grid DoS cc T g =
      ((specCandidates g).getD (specSelectedIdx grid DoS T g cc) 0,
       (specIntegrals grid DoS T g).getD (specSelectedIdx grid DoS T g cc) 0) := by
  have hmap : (specIntegrals grid DoS T g).map (fun I => abs (cc - abs I)) =
      (specIntegrals grid DoS T g).map (fun I => abs (I - cc)) := by
    apply List.map_congr_left
    intro I hI
    obtain ⟨Ef, _, rfl⟩ := List.mem_map.mp hI
    have hnn := concIntegral_nonneg grid DoS Ef T hDoS hgrid
    rw [abs_of_nonneg hnn, abs_sub_comm]
  show ((specCandidates g).getD
      (argmin ((specIntegrals grid DoS T g).map (fun I => abs (cc - abs I)))) 0,
    (specIntegrals grid DoS T g).getD
      (argmin ((specIntegrals grid DoS T g).map (fun I => abs (cc - abs I)))) 0) = _
  rw [hmap]
  rfl

/-- Claim C1: for every target concentration, temperature array, energy
grid, tabulated DoS and initial guess, `fermiLevelSelfConsistent`
returns per temperature index the candidate from the uniform 4000-point
window `guess ± 0.2` eV minimizing the distance between the trapezoidal
integral of DoS times Fermi-Dirac occupation and the target (earliest
minimizer on ties, since `np.argmin` keeps the first occurrence), and
the realized concentration, i.e. that integral at the selected
candidate.  The DoS tabulation is nonnegative and the energy grid
monotone, which are the data-model invariants of those inputs. -/
theorem C1_fermiLevelSelfConsistent (CC Temp grid DoS guess : List ℝ)
    (hDoS : ∀ d ∈ DoS, 0 ≤ d)
    (hgrid : List.Chain' (fun a b => a ≤ b) grid)
    (j : ℕ) (hjT : j < Temp.length) (hjC : j < CC.length)
    (hjg : j < guess.length) :
    (fermiLevelSelfConsistent CC Temp grid DoS guess).1.getD j 0 =
      (specCandidates (guess.getD j 0)).getD
        (specSelectedIdx grid DoS (Temp.getD j 0) (guess.getD j 0)
          (CC.getD j 0)) 0 ∧
    (fermiLevelSelfConsistent CC Temp grid DoS guess).2.getD j 0 =
      (specIntegrals grid DoS (Temp.getD j 0) (guess.getD j 0)).getD
        (specSelectedIdx grid DoS (Temp.getD j 0) (guess.getD j 0)
          (CC.getD j 0)) 0 := by
  have hjz : j < (List.zip Temp (List.zip CC guess)).length := by
    simp only [List.length_zip]
    omega
  have hzip : (List.zip Temp (List.zip CC guess)).getD j (0, (0, 0)) =
      (Temp.getD j 0, (CC.getD j 0, guess.getD j 0)) := by
    rw [getD_zip_lt Temp _ hjT (by simp only [List.length_zip]; omega)
        (0, (0, 0)) 0 (0, 0),
      getD_zip_lt CC guess hjC hjg (0, 0) 0 0]
  have hspec := fermiSolveRow_spec grid DoS (CC.getD j 0) (Temp.getD j 0)
    (guess.getD j 0) hDoS hgrid
  constructor
  · show (((List.zip Temp (List.zip CC guess)).map
        (fun p => fermiSolveRow grid DoS p.2.1 p.1 p.2.2)).map Prod.fst).getD
        j 0 = _
    rw [getD_map_lt Prod.fst _ (by simpa using hjz) 0
        (fermiSolveRow grid DoS 0 0 0),
      getD_map_lt _ _ hjz (fermiSolveRow grid DoS 0 0 0) (0, (0, 0)), hzip,
      hspec]
  · show (((List.zip Temp (List.zip CC guess)).map
        (fun p => fermiSolveRow grid DoS p.2.1 p.1 p.2.2)).map Prod.snd).getD
        j 0 = _
    rw [getD_map_lt Prod.snd _ (by simpa using hjz) 0
        (fermiSolveRow grid DoS 0 0 0),
      getD_map_lt _ _ hjz (fermiSolveRow grid DoS 0 0 0) (0, (0, 0)), hzip,
      hspec]

/-- Witness for C1 at one temperature, a two-point grid and a constant
DoS tabulation. -/
theorem C1_fermiLevelSelfConsistent_witness :
    (fermiLevelSelfConsistent [1] [300] [0, 1] [1, 1] [0]).1.getD 0 0 =
      (specCandidates 0).getD (specSelectedIdx [0, 1] [1, 1] 300 0 1) 0 ∧
    (fermiLevelSelfConsistent [1] [300] [0, 1] [1, 1] [0]).2.getD 0 0 =
      (specIntegrals [0, 1] [1, 1] 300 0).getD
        (specSelectedIdx [0, 1] [1, 1] 300 0 1) 0 := by
  have h := C1_fermiLevelSelfConsistent [1] [300] [0, 1] [1, 1] [0]
    (by intro d hd; fin_cases hd <;> norm_num)
    (by constructor <;> norm_num)
    0 (by norm_num) (by norm_num) (by norm_num)
  simpa using h

/-- Claim C9: for every valid grid specification (`emin < emax`,
`2 ≤ n`) the energy-grid constructor succeeds and returns exactly `n`
values, strictly increasing with uniform spacing, the first equal to
`emin` and the last equal to `emax`. -/
theorem C9_energyRange (emin emax : ℚ) (n : ℕ) (h1 : emin < emax) (h2 : 2 ≤ n) :
    energyRange emin emax n = Except.ok [linspace emin emax n] ∧
    (linspace emin emax n).length = n ∧
    List.Chain' (fun x y => x < y) (linspace emin emax n) ∧
    (linspace emin emax n).getD 0 0 = emin ∧
    (linspace emin emax n).getD (n - 1) 0 = emax ∧
    ∀ i : ℕ, i + 1 < n →
      (linspace emin emax n).getD (i + 1) 0 - (linspace emin emax n).getD i 0 =
        (emax - emin) / ((n : ℚ) - 1) := by
  refine ⟨rfl, linspace_length _ _ _, linspace_chain _ _ _ h1, ?_,
    linspace_getD_last _ _ h2, ?_⟩
  · rw [linspace_getD emin emax (by omega : 0 < n)]
    simp
  · intro i hi
    rw [linspace_getD emin emax (by omega : i + 1 < n),
      linspace_getD emin emax (by omega : i < n)]
    push_cast
    ring

/-- Witness for C9 at `emin = 0`, `emax = 2`, `n = 5`. -/
theorem C9_energyRange_witness :
    energyRange 0 2 5 = Except.ok [linspace 0 2 5] ∧
    (linspace (0 : ℚ) 2 5).length = 5 ∧
    (linspace (0 : ℚ) 2 5).getD 0 0 = 0 ∧
    (linspace (0 : ℚ) 2 5).getD 4 0 = 2 :=
  ⟨(C9_energyRange 0 2 5 (by norm_num) (by norm_num)).1,
   (C9_energyRange 0 2 5 (by norm_num) (by norm_num)).2.1,
   (C9_energyRange 0 2 5 (by norm_num) (by norm_num)).2.2.2.1,
   (C9_energyRange 0 2 5 (by norm_num) (by norm_num)).2.2.2.2.1⟩

/-- Counterexample to claim C10: the constructor does not fail when
`emax ≤ emin` (here `0, 0, 5`) nor when `count < 2` (here `0, 2, 1`);
both calls return normally, because the source performs no validation
before calling `np.linspace`. -/
theorem C10_counterexample :
    exceptOk (energyRange 0 0 5) = true ∧ exceptOk (energyRange 0 2 1) = true :=
  ⟨rfl, rfl⟩

/-- Claim C10 as amended: the energy-grid constructor never fails; it
always returns the `np.linspace` grid, and on a degenerate range
(`emax ≤ emin` with at least two samples) the returned grid is simply
not strictly increasing rather than an error. -/
theorem C10_energyRange_no_validation (emin emax : ℚ) (n : ℕ) :
    energyRange emin emax n = Except.ok [linspace emin emax n] ∧
    (emax ≤ emin → 2 ≤ n →
      ¬ List.Chain' (fun x y => x < y) (linspace emin emax n)) := by
  refine ⟨rfl, ?_⟩
  intro hle hn hch
  rw [List.chain'_iff_get] at hch
  have h0 : (0 : ℕ) < (linspace emin emax n).length - 1 := by
    rw [linspace_length]; omega
  have hlt := hch 0 h0
  simp only [List.get_eq_getElem] at hlt
  rw [← List.getD_eq_getElem _ 0, ← List.getD_eq_getElem _ 0] at hlt
  rw [linspace_getD emin emax (by omega : 0 < n),
    linspace_getD emin emax (by omega : 0 + 1 < n)] at hlt
  push_cast at hlt
  have hd : (0 : ℚ) < (n : ℚ) - 1 := by
    have : (1 : ℚ) < (n : ℚ) := by exact_mod_cast Nat.one_lt_cast.mpr (by omega)
    linarith
  have h2 : 0 < (emax - emin) / ((n : ℚ) - 1) := by
    rw [mul_zero, zero_div, add_zero, mul_one] at hlt
    linarith
  have h3 := mul_pos h2 hd
  rw [div_mul_cancel₀ _ hd.ne'] at h3
  linarith

/-- Witness for the amended C10 at `emin = 1`, `emax = 0`, `n = 3`. -/
theorem C10_energyRange_no_validation_witness :
    energyRange 1 0 3 = Except.ok [linspace 1 0 3] ∧
    ¬ List.Chain' (fun x y => x < y) (linspace (1 : ℚ) 0 3) :=
  ⟨(C10_energyRange_no_validation 1 0 3).1,
   (C10_energyRange_no_validation 1 0 3).2 (by norm_num) (by norm_num)⟩

/-- Claim C4: `fermiDistribution` computes
`f = 1 / (exp((E - Ef) / (kB T)) + 1)` and
`df/dE = -exp((E - Ef) / (kB T)) / (1 + exp((E - Ef) / (kB T)))^2 / (kB T)`,
and for every `E`, `Ef` and `T > 0`: `0 < f < 1`, `f(Ef) = 1/2` exactly,
and `df/dE < 0`. -/
theorem C4_fermiDistribution (E Ef T : ℝ) (hT : 0 < T) :
    (fermiDistribution E Ef T).1 = 1 / (Real.exp ((E - Ef) / (kB * T)) + 1) ∧
    (fermiDistribution E Ef T).2 =
      -Real.exp ((E - Ef) / (kB * T)) /
        (1 + Real.exp ((E - Ef) / (kB * T))) ^ 2 / (kB * T) ∧
    (0 < (fermiDistribution E Ef T).1 ∧ (fermiDistribution E Ef T).1 < 1) ∧
    (fermiDistribution Ef Ef T).1 = 1 / 2 ∧
    (fermiDistribution E Ef T).2 < 0 := by
  have harg : (E - Ef) / (kB * T) = (E - Ef) / T / kB := by
    rw [div_div, mul_comm]
  have hx : 0 < xiVal E Ef T := Real.exp_pos _
  have hkB : 0 < kB := by norm_num [kB]
  refine ⟨?_, ?_, ⟨fermiDirac_pos E Ef T, fermiDirac_lt_one E Ef T⟩, ?_, ?_⟩
  · show 1 / (xiVal E Ef T + 1) = _
    rw [harg, xiVal]
  · show -1 * xiVal E Ef T / (1 + xiVal E Ef T) ^ 2 / T / kB = _
    rw [harg, xiVal]
    ring
  · show 1 / (xiVal Ef Ef T + 1) = 1 / 2
    have hone : xiVal Ef Ef T = 1 := by
      rw [xiVal]
      simp
    rw [hone]
    norm_num
  · show -1 * xiVal E Ef T / (1 + xiVal E Ef T) ^ 2 / T / kB < 0
    have h1 : 0 < (1 + xiVal E Ef T) ^ 2 := by positivity
    have h2 : 0 < xiVal E Ef T / (1 + xiVal E Ef T) ^ 2 / T / kB :=
      div_pos (div_pos (div_pos hx h1) hT) hkB
    have h3 : -1 * xiVal E Ef T / (1 + xiVal E Ef T) ^ 2 / T / kB =
        -(xiVal E Ef T / (1 + xiVal E Ef T) ^ 2 / T / kB) := by ring
    rw [h3]
    linarith

/-- Witness for C4 at `E = 1`, `Ef = 0`, `T = 300`. -/
theorem C4_fermiDistribution_witness :
    (0 < (fermiDistribution 1 0 300).1 ∧ (fermiDistribution 1 0 300).1 < 1) ∧
    (fermiDistribution 0 0 300).1 = 1 / 2 ∧
    (fermiDistribution 1 0 300).2 < 0 :=
  ⟨(C4_fermiDistribution 1 0 300 (by norm_num)).2.2.1,
   (C4_fermiDistribution 1 0 300 (by norm_num)).2.2.2.1,
   (C4_fermiDistribution 1 0 300 (by norm_num)).2.2.2.2⟩

/-- Claim C2: `electricalProperties` returns exactly the spec formulas:
with `X = DoS·vg²·df/dE`, `Y = (E-Ef)·X`, `Z = (E-Ef)·Y` and all
integrals trapezoidal over the grid, `Sigma = -(1/3)·e·∫Xτ`,
`S = -∫Yτ/∫Xτ/T`, `PF = Sigma·S²`, `ke = -(1/(3T))·e·(∫Zτ - (∫Yτ)²/∫Xτ)`,
`δ1 = ∫XτE/∫Xτ`, `δ2 = ∫XτE²/∫Xτ`, `Lorenz = (δ2 - δ1²)/T²`. -/
theorem C2_electricalProperties (E DoS vg : List ℝ) (Ef : ℝ) (dfdE : List ℝ)
    (Temp : ℝ) (tau : List ℝ) :
    (electricalProperties E DoS vg Ef dfdE Temp tau).Sigma =
        -(1 / 3) * e2C * intTau (specX DoS vg dfdE) tau E ∧
    (electricalProperties E DoS vg Ef dfdE Temp tau).S =
        -(intTau (specY E Ef DoS vg dfdE) tau E) /
          intTau (specX DoS vg dfdE) tau E / Temp ∧
    (electricalProperties E DoS vg Ef dfdE Temp tau).PF =
        (electricalProperties E DoS vg Ef dfdE Temp tau).Sigma *
          (electricalProperties E DoS vg Ef dfdE Temp tau).S ^ 2 ∧
    (electricalProperties E DoS vg Ef dfdE Temp tau).ke =
        -(1 / (3 * Temp)) * e2C *
          (intTau (specZ E Ef DoS vg dfdE) tau E -
            (intTau (specY E Ef DoS vg dfdE) tau E) ^ 2 /
              intTau (specX DoS vg dfdE) tau E) ∧
    (electricalProperties E DoS vg Ef dfdE Temp tau).delta_1 =
        intTauE (specX DoS vg dfdE) tau E /
          intTau (specX DoS vg dfdE) tau E ∧
    (electricalProperties E DoS vg Ef dfdE Temp tau).delta_2 =
        intTauE2 (specX DoS vg dfdE) tau E /
          intTau (specX DoS vg dfdE) tau E ∧
    (electricalProperties E DoS vg Ef dfdE Temp tau).Lorenz =
        ((electricalProperties E DoS vg Ef dfdE Temp tau).delta_2 -
          (electricalProperties E DoS vg Ef dfdE Temp tau).delta_1 ^ 2) /
          Temp ^ 2 := by
  refine ⟨?_, ?_, ?_, ?_, ?_, ?_, ?_⟩ <;>
    simp only [electricalProperties, specX, specY, specZ, intTau, intTauE,
      intTauE2] <;> ring

/-- Claim C8: `tau_p` returns the pair (parabolic lifetime,
nonparabolic lifetime) with the nonparabolic lifetime equal to the
parabolic one divided elementwise by the correction factor
`(1 - (αE/(1+2αE))(1 - Dv/DA))² - (8/3)(αE)(1+αE)/(1+2αE)²(Dv/DA)`
at each grid energy.  The grid and the DoS tabulation `D` are
co-indexed (equal lengths), as everywhere in the pipeline. -/
theorem C8_tau_p (energyRange : List ℝ) (alpha Dv DA T vs : ℝ)
    (D : List ℝ) (rho : ℝ) (hlen : energyRange.length = D.length) (i : ℕ) :
    ((tau_p energyRange alpha Dv DA T vs D rho).2).getD i 0 =
      ((tau_p energyRange alpha Dv DA T vs D rho).1).getD i 0 /
        ((1 - (alpha * (energyRange.getD i 0) /
            (1 + 2 * alpha * (energyRange.getD i 0)) * (1 - Dv / DA))) ^ 2 -
          (8 / 3) * (alpha * (energyRange.getD i 0)) *
            (1 + alpha * (energyRange.getD i 0)) /
            (1 + 2 * alpha * (energyRange.getD i 0)) ^ 2 * (Dv / DA)) := by
  simp only [tau_p]
  by_cases hi : i < energyRange.length
  · have hiD : i < D.length := by omega
    have h2len : i < (List.zipWith (fun t c => t / c)
        (D.map (fun d =>
          rho * vs ^ 2 * hBar / Real.pi / kB / T / DA / DA * 1e9 / e2C / d))
        (energyRange.map (fun E =>
          (1 - ((alpha * E) / (1 + 2 * alpha * E) * (1 - Dv / DA))) ^ 2 -
            8 / 3 * (alpha * E) * (1 + alpha * E) /
              (1 + 2 * alpha * E) ^ 2 * (Dv / DA)))).length := by
      simp only [List.length_zipWith, List.length_map]
      omega
    rw [List.getD_eq_getElem _ _ h2len, List.getElem_zipWith,
      List.getD_eq_getElem _ _ (by simpa using hiD),
      List.getD_eq_getElem _ _ hi]
    simp only [List.getElem_map]
  · have hge : energyRange.length ≤ i := by omega
    have hgeD : D.length ≤ i := by omega
    rw [List.getD_eq_default _ _ (by
        simp only [List.length_zipWith, List.length_map]
        omega),
      List.getD_eq_default _ _ (by simpa using hgeD),
      List.getD_eq_default _ _ hge]
    rw [zero_div]

/-! Matthiessen-rule facts. -/

theorem FQ.zero_add_fq (x : FQ) : FQ.add (FQ.num 0) x = x := by
  cases x <;> simp [FQ.add]

theorem FQ.add_comm_fq (x y : FQ) : FQ.add x y = FQ.add y x := by
  cases x <;> cases y <;> simp [FQ.add, add_comm]

theorem FQ.isNum_iff (v : FQ) : v.isNum = true ↔ ∃ q, v = FQ.num q := by
  cases v <;> simp [FQ.isNum]

theorem FQ.add_numOrInf {x y : FQ} (hx : x.numOrInf) (hy : y.numOrInf) :
    (FQ.add x y).numOrInf := by
  cases x <;> cases y <;> simp_all [FQ.numOrInf, FQ.isNum, FQ.add]

theorem FQ.add_inf_left {y : FQ} (hy : y.numOrInf) :
    FQ.add FQ.inf y = FQ.inf := by
  cases y <;> simp_all [FQ.numOrInf, FQ.isNum, FQ.add]

theorem FQ.add_inf_right {x : FQ} (hx : x.numOrInf) :
    FQ.add x FQ.inf = FQ.inf := by
  cases x <;> simp_all [FQ.numOrInf, FQ.isNum, FQ.add]

theorem foldl_add_inf (l : List FQ) (hl : ∀ v ∈ l, v.numOrInf) :
    l.foldl FQ.add FQ.inf = FQ.inf := by
  induction l with
  | nil => rfl
  | cons v tl ih =>
      have hv := hl v (by simp)
      simp only [List.foldl_cons, FQ.add_inf_left hv]
      exact ih (fun w hw => hl w (by simp [hw]))

theorem foldl_add_mem_inf (l : List FQ) (hl : ∀ v ∈ l, v.numOrInf)
    (hmem : FQ.inf ∈ l) :
    ∀ acc : FQ, acc.numOrInf → l.foldl FQ.add acc = FQ.inf := by
  induction l with
  | nil => simp at hmem
  | cons v tl ih =>
      intro acc hacc
      simp only [List.foldl_cons]
      rcases List.mem_cons.mp hmem with hv | hmem'
      · rw [← hv, FQ.add_inf_right hacc]
        exact foldl_add_inf tl (fun w hw => hl w (by simp [hw]))
      · exact ih (fun w hw => hl w (by simp [hw])) hmem' _
          (FQ.add_numOrInf hacc (hl v (by simp)))

theorem rcp_numOrInf {v : FQ} (hv : v.isNum = true) : (FQ.rcp v).numOrInf := by
  obtain ⟨q, rfl⟩ := (FQ.isNum_iff v).mp hv
  by_cases hq : q = 0 <;> simp [FQ.rcp, FQ.numOrInf, FQ.isNum, hq]

/-- The scalar Matthiessen combination of finite lifetimes is exactly
zero wherever some lifetime is exactly zero. -/
theorem matthiessenS_zero (args : List FQ) (hall : ∀ v ∈ args, v.isNum = true)
    (hz : FQ.num 0 ∈ args) : matthiessenS args = FQ.num 0 := by
  have hfold : (args.map FQ.rcp).foldl FQ.add (FQ.num 0) = FQ.inf := by
    apply foldl_add_mem_inf
    · intro v hv
      obtain ⟨w, hw, rfl⟩ := List.mem_map.mp hv
      exact rcp_numOrInf (hall w hw)
    · exact List.mem_map.mpr ⟨FQ.num 0, hz, by simp [FQ.rcp]⟩
    · simp [FQ.numOrInf, FQ.isNum]
  show (if (FQ.rcp ((args.map FQ.rcp).foldl FQ.add (FQ.num 0))).isinf
      then FQ.num 0 else _) = FQ.num 0
  rw [hfold]
  rfl

theorem foldl_add_nums (qs : List ℚ) :
    ∀ c : ℚ, (qs.map FQ.num).foldl FQ.add (FQ.num c) = FQ.num (c + qs.sum) := by
  induction qs with
  | nil => intro c; simp [List.foldl_nil]
  | cons q tl ih =>
      intro c
      simp only [List.map_cons, List.foldl_cons, FQ.add, List.sum_cons]
      rw [ih (c + q)]
      ring_nf

/-- The scalar Matthiessen combination of nonzero finite lifetimes with
a nonvanishing total rate computes the reciprocal of the rate sum. -/
theorem matthiessenS_formula (qs : List ℚ) (h0 : ∀ q ∈ qs, q ≠ 0)
    (hs : (qs.map (fun q => 1 / q)).sum ≠ 0) :
    matthiessenS (qs.map FQ.num) = FQ.num ((qs.map (fun q => 1 / q)).sum)⁻¹ := by
  have hrcp : (qs.map FQ.num).map FQ.rcp = (qs.map (fun q => 1 / q)).map FQ.num := by
    rw [List.map_map, List.map_map]
    apply List.map_congr_left
    intro q hq
    simp [FQ.rcp, Function.comp, h0 q hq]
  have hfold : ((qs.map FQ.num).map FQ.rcp).foldl FQ.add (FQ.num 0) =
      FQ.num ((qs.map (fun q => 1 / q)).sum) := by
    rw [hrcp, foldl_add_nums]
    rw [zero_add]
  have hs' : (qs.map (fun q => q⁻¹)).sum ≠ 0 := by
    simpa [one_div] using hs
  have hr : FQ.rcp (FQ.num ((qs.map (fun q => 1 / q)).sum)) =
      FQ.num ((qs.map (fun q => 1 / q)).sum)⁻¹ := by
    simp only [FQ.rcp, one_div]
    rw [if_neg hs']
  show (if (FQ.rcp (((qs.map FQ.num).map FQ.rcp).foldl FQ.add (FQ.num 0))).isinf
      then FQ.num 0
    else FQ.rcp (((qs.map FQ.num).map FQ.rcp).foldl FQ.add (FQ.num 0))) = _
  rw [hfold, hr]
  rfl

theorem matthiessenS_single (q : ℚ) : matthiessenS [FQ.num q] = FQ.num q := by
  by_cases hq : q = 0
  · subst hq
    exact matthiessenS_zero [FQ.num 0] (by simp [FQ.isNum]) (by simp)
  · have h1 : ([q].map (fun r => 1 / r)).sum ≠ 0 := by
      simpa using one_div_ne_zero hq
    have := matthiessenS_formula [q] (by simpa using hq) h1
    simp only [List.map_cons, List.map_nil] at this
    rw [this]
    congr 1
    simp [one_div]

theorem matthiessenS_pair_comm (x y : FQ) :
    matthiessenS [x, y] = matthiessenS [y, x] := by
  show (if (FQ.rcp (FQ.add (FQ.add (FQ.num 0) (FQ.rcp x)) (FQ.rcp y))).isinf
      then FQ.num 0
    else FQ.rcp (FQ.add (FQ.add (FQ.num 0) (FQ.rcp x)) (FQ.rcp y))) =
    (if (FQ.rcp (FQ.add (FQ.add (FQ.num 0) (FQ.rcp y)) (FQ.rcp x))).isinf
      then FQ.num 0
    else FQ.rcp (FQ.add (FQ.add (FQ.num 0) (FQ.rcp y)) (FQ.rcp x)))
  rw [FQ.zero_add_fq (FQ.rcp x), FQ.zero_add_fq (FQ.rcp y),
    FQ.add_comm_fq (FQ.rcp x) (FQ.rcp y)]

/-- The scalar pair combination of nonnegative finite lifetimes: zero
absorbs, and on positive lifetimes it is the harmonic combination. -/
theorem matthiessenS_pair_nonneg (p q : ℚ) (hp : 0 ≤ p) (hq : 0 ≤ q) :
    ∃ r : ℚ, 0 ≤ r ∧ matthiessenS [FQ.num p, FQ.num q] = FQ.num r ∧
      ((p = 0 ∨ q = 0) → r = 0) ∧
      (p ≠ 0 → q ≠ 0 → r = 1 / (1 / p + 1 / q)) := by
  by_cases hp0 : p = 0
  · refine ⟨0, le_refl 0, ?_, fun _ => rfl, fun hp' _ => absurd hp0 hp'⟩
    exact matthiessenS_zero _ (by simp [FQ.isNum]) (by simp [hp0])
  · by_cases hq0 : q = 0
    · refine ⟨0, le_refl 0, ?_, fun _ => rfl, fun _ hq' => absurd hq0 hq'⟩
      exact matthiessenS_zero _ (by simp [FQ.isNum]) (by simp [hq0])
    · have hppos : 0 < p := lt_of_le_of_ne hp (Ne.symm hp0)
      have hqpos : 0 < q := lt_of_le_of_ne hq (Ne.symm hq0)
      have hsum : 0 < 1 / p + 1 / q := by positivity
      have hform := matthiessenS_formula [p, q]
        (by intro x hx; fin_cases hx <;> assumption)
        (by simpa using hsum.ne')
      simp only [List.map_cons, List.map_nil, List.sum_cons, List.sum_nil,
        add_zero] at hform
      refine ⟨1 / (1 / p + 1 / q), by positivity, ?_,
        fun h => absurd h (by simp [hp0, hq0]), fun _ _ => rfl⟩
      rw [hform]
      simp [one_div]

theorem matthiessen_length (args : List (List FQ)) :
    (matthiessen args).length = (args.headD []).length := by
  show ((List.range _).map _).length = _
  rw [List.length_map, List.length_range]

theorem matthiessen_getD_lt (args : List (List FQ)) (i : ℕ)
    (hi : i < (args.headD []).length) (d : FQ) :
    (matthiessen args).getD i d =
      matthiessenS (args.map (fun a => a.getD i (FQ.num 0))) := by
  rw [List.getD_eq_getElem _ _ (by rw [matthiessen_length]; omega)]
  simp only [matthiessen, List.getElem_map, List.getElem_range]

theorem getD_num_nonneg (l : List FQ)
    (hl : ∀ v ∈ l, ∃ q, v = FQ.num q ∧ 0 ≤ q) (i : ℕ) :
    ∃ q, l.getD i (FQ.num 0) = FQ.num q ∧ 0 ≤ q := by
  by_cases hi : i < l.length
  · rw [List.getD_eq_getElem _ _ hi]
    exact hl _ (List.getElem_mem _)
  · rw [List.getD_eq_default _ _ (by omega)]
    exact ⟨0, rfl, le_refl 0⟩

theorem getD_isNum (l : List FQ) (hl : ∀ v ∈ l, v.isNum = true) (i : ℕ) :
    ∃ q, l.getD i (FQ.num 0) = FQ.num q := by
  by_cases hi : i < l.length
  · rw [List.getD_eq_getElem _ _ hi]
    exact (FQ.isNum_iff _).mp (hl _ (List.getElem_mem hi))
  · rw [List.getD_eq_default _ _ (by omega)]
    exact ⟨0, rfl⟩

/-- One position of a two-argument `matthiessen` call is the scalar
pair combination of the two positions, for nonneg finite inputs (past
either array's end the padding zero makes both sides exactly zero). -/
theorem matthiessen_pair_getD (b c : List FQ)
    (hb : ∀ v ∈ b, ∃ q, v = FQ.num q ∧ 0 ≤ q)
    (hc : ∀ v ∈ c, ∃ q, v = FQ.num q ∧ 0 ≤ q) (i : ℕ) :
    (matthiessen [b, c]).getD i (FQ.num 0) =
      matthiessenS [b.getD i (FQ.num 0), c.getD i (FQ.num 0)] := by
  by_cases hi : i < b.length
  · rw [matthiessen_getD_lt [b, c] i (by simpa using hi)]
    rfl
  · rw [List.getD_eq_default _ _ (by
        rw [matthiessen_length]
        simpa using hi)]
    rw [List.getD_eq_default b _ (by omega)]
    obtain ⟨r, hr, hrn⟩ := getD_num_nonneg c hc i
    rw [hr]
    exact (matthiessenS_zero _ (by simp [FQ.isNum]) (by simp)).symm

/-- Scalar associativity of the pair combination on nonnegative finite
lifetimes. -/
theorem matthiessenS_assoc (p q r : ℚ) (hp : 0 ≤ p) (hq : 0 ≤ q)
    (hr : 0 ≤ r) :
    matthiessenS [matthiessenS [FQ.num p, FQ.num q], FQ.num r] =
      matthiessenS [FQ.num p, matthiessenS [FQ.num q, FQ.num r]] := by
  obtain ⟨u, hu, hu1, hu0, huf⟩ := matthiessenS_pair_nonneg p q hp hq
  obtain ⟨w, hw, hw1, hw0, hwf⟩ := matthiessenS_pair_nonneg q r hq hr
  rw [hu1, hw1]
  by_cases hp0 : p = 0
  · have hu0' : u = 0 := hu0 (Or.inl hp0)
    rw [hu0', hp0]
    rw [matthiessenS_zero [FQ.num 0, FQ.num r] (by simp [FQ.isNum]) (by simp),
      matthiessenS_zero [FQ.num 0, FQ.num w] (by simp [FQ.isNum]) (by simp)]
  · by_cases hq0 : q = 0
    · have hu0' : u = 0 := hu0 (Or.inr hq0)
      have hw0' : w = 0 := hw0 (Or.inl hq0)
      rw [hu0', hw0']
      rw [matthiessenS_zero [FQ.num 0, FQ.num r] (by simp [FQ.isNum]) (by simp),
        matthiessenS_zero [FQ.num p, FQ.num 0] (by simp [FQ.isNum]) (by simp)]
    · by_cases hr0 : r = 0
      · have hw0' : w = 0 := hw0 (Or.inr hr0)
        rw [hw0']
        rw [matthiessenS_zero [FQ.num u, FQ.num r] (by simp [FQ.isNum])
            (by simp [hr0]),
          matthiessenS_zero [FQ.num p, FQ.num 0] (by simp [FQ.isNum]) (by simp)]
      · have hppos : 0 < p := lt_of_le_of_ne hp (Ne.symm hp0)
        have hqpos : 0 < q := lt_of_le_of_ne hq (Ne.symm hq0)
        have hrpos : 0 < r := lt_of_le_of_ne hr (Ne.symm hr0)
        have huval : u = 1 / (1 / p + 1 / q) := huf hp0 hq0
        have hwval : w = 1 / (1 / q + 1 / r) := hwf hq0 hr0
        have hupos : 0 < u := by
          rw [huval]; positivity
        have hwpos : 0 < w := by
          rw [hwval]; positivity
        obtain ⟨s, _, hs1, _, hsf⟩ := matthiessenS_pair_nonneg u r hu hr
        obtain ⟨t, _, ht1, _, htf⟩ := matthiessenS_pair_nonneg p w hp hw
        rw [hs1, ht1]
        have hsval := hsf hupos.ne' hr0
        have htval := htf hp0 hwpos.ne'
        congr 1
        rw [hsval, htval, huval, hwval, one_div_one_div, one_div_one_div]
        ring_nf

/-- Claim C3: the Matthiessen combination computes the elementwise
reciprocal rate sum `(sum of 1/tau_i)⁻¹`; a single finite array is a
fixed point; a zero lifetime at a position forces an exact zero there
(never `nan` or `inf`); and the combination is commutative and (on
nonnegative lifetimes) associative over its arguments. -/
theorem C3_matthiessen :
    (∀ qs : List ℚ, (∀ q ∈ qs, q ≠ 0) → (qs.map (fun q => 1 / q)).sum ≠ 0 →
      matthiessenS (qs.map FQ.num) =
        FQ.num ((qs.map (fun q => 1 / q)).sum)⁻¹) ∧
    (∀ a : List FQ, (∀ v ∈ a, v.isNum = true) → matthiessen [a] = a) ∧
    (∀ (args : List (List FQ)) (i : ℕ),
      (∀ l ∈ args, ∀ v ∈ l, v.isNum = true) →
      i < (args.headD []).length →
      (∃ l ∈ args, l.getD i (FQ.num 0) = FQ.num 0) →
      (matthiessen args).getD i FQ.nan = FQ.num 0) ∧
    (∀ a b : List FQ, a.length = b.length →
      matthiessen [a, b] = matthiessen [b, a]) ∧
    (∀ a b c : List FQ,
      (∀ v ∈ a, ∃ q, v = FQ.num q ∧ 0 ≤ q) →
      (∀ v ∈ b, ∃ q, v = FQ.num q ∧ 0 ≤ q) →
      (∀ v ∈ c, ∃ q, v = FQ.num q ∧ 0 ≤ q) →
      matthiessen [matthiessen [a, b], c] =
        matthiessen [a, matthiessen [b, c]]) := by
  refine ⟨matthiessenS_formula, ?_, ?_, ?_, ?_⟩
  · intro a ha
    apply List.ext_get
    · rw [matthiessen_length]
      rfl
    · intro i h1 h2
      have hL : (matthiessen [a]).get ⟨i, h1⟩ =
          matthiessenS [a.getD i (FQ.num 0)] := by
        rw [List.get_eq_getElem, ← List.getD_eq_getElem _ (FQ.num 0),
          matthiessen_getD_lt [a] i (by simpa using h2)]
        rfl
      have hget : a.get ⟨i, h2⟩ = a.getD i (FQ.num 0) := by
        rw [List.get_eq_getElem, ← List.getD_eq_getElem _ (FQ.num 0)]
      rw [hL, hget]
      obtain ⟨q, hq⟩ := getD_isNum a ha i
      rw [hq]
      exact matthiessenS_single q
  · intro args i hall hi hz
    rw [matthiessen_getD_lt args i hi]
    apply matthiessenS_zero
    · intro v hv
      obtain ⟨l, hl, rfl⟩ := List.mem_map.mp hv
      by_cases hil : i < l.length
      · rw [List.getD_eq_getElem _ _ hil]
        exact hall l hl _ (List.getElem_mem hil)
      · rw [List.getD_eq_default _ _ (by omega)]
        rfl
    · obtain ⟨l, hl, hl0⟩ := hz
      exact List.mem_map.mpr ⟨l, hl, hl0⟩
  · intro a b hlen
    apply List.ext_get
    · rw [matthiessen_length, matthiessen_length]
      simpa using hlen
    · intro i h1 h2
      have hia : i < a.length := by
        have h := h1
        rw [matthiessen_length] at h
        simpa using h
      have hL : (matthiessen [a, b]).get ⟨i, h1⟩ =
          matthiessenS [a.getD i (FQ.num 0), b.getD i (FQ.num 0)] := by
        rw [List.get_eq_getElem, ← List.getD_eq_getElem _ (FQ.num 0),
          matthiessen_getD_lt [a, b] i (by simpa using hia)]
        rfl
      have hR : (matthiessen [b, a]).get ⟨i, h2⟩ =
          matthiessenS [b.getD i (FQ.num 0), a.getD i (FQ.num 0)] := by
        rw [List.get_eq_getElem, ← List.getD_eq_getElem _ (FQ.num 0),
          matthiessen_getD_lt [b, a] i (by simpa [← hlen] using hia)]
        rfl
      rw [hL, hR]
      exact matthiessenS_pair_comm _ _
  · intro a b c ha hb hc
    apply List.ext_get
    · rw [matthiessen_length, matthiessen_length]
      show (matthiessen [a, b]).length = a.length
      rw [matthiessen_length]
      rfl
    · intro i h1 h2
      have hia : i < a.length := by
        have h := h1
        rw [matthiessen_length] at h
        show i < a.length
        rw [show ([matthiessen [a, b], c].headD []).length =
            (matthiessen [a, b]).length from rfl, matthiessen_length] at h
        simpa using h
      have hL : (matthiessen [matthiessen [a, b], c]).get ⟨i, h1⟩ =
          matthiessenS [(matthiessen [a, b]).getD i (FQ.num 0),
            c.getD i (FQ.num 0)] := by
        rw [List.get_eq_getElem, ← List.getD_eq_getElem _ (FQ.num 0),
          matthiessen_getD_lt [matthiessen [a, b], c] i (by
            rw [show ([matthiessen [a, b], c].headD []).length =
                (matthiessen [a, b]).length from rfl, matthiessen_length]
            simpa using hia)]
        rfl
      have hR : (matthiessen [a, matthiessen [b, c]]).get ⟨i, h2⟩ =
          matthiessenS [a.getD i (FQ.num 0),
            (matthiessen [b, c]).getD i (FQ.num 0)] := by
        rw [List.get_eq_getElem, ← List.getD_eq_getElem _ (FQ.num 0),
          matthiessen_getD_lt [a, matthiessen [b, c]] i (by simpa using hia)]
        rfl
      rw [hL, hR, matthiessen_pair_getD a b ha hb,
        matthiessen_pair_getD b c hb hc]
      obtain ⟨p, hp1, hp2⟩ := getD_num_nonneg a ha i
      obtain ⟨q, hq1, hq2⟩ := getD_num_nonneg b hb i
      obtain ⟨r, hr1, hr2⟩ := getD_num_nonneg c hc i
      rw [hp1, hq1, hr1]
      exact matthiessenS_assoc p q r hp2 hq2 hr2

/-- Witness for C3 on concrete one-element arrays. -/
theorem C3_matthiessen_witness :
    matthiessenS ([(2 : ℚ)].map FQ.num) =
      FQ.num (([(2 : ℚ)].map (fun q => 1 / q)).sum)⁻¹ ∧
    matthiessen [[FQ.num 1]] = [FQ.num 1] ∧
    (matthiessen [[FQ.num 0], [FQ.num 2]]).getD 0 FQ.nan = FQ.num 0 ∧
    matthiessen [[FQ.num 1], [FQ.num 2]] = matthiessen [[FQ.num 2], [FQ.num 1]] ∧
    matthiessen [matthiessen [[FQ.num 1], [FQ.num 2]], [FQ.num 3]] =
      matthiessen [[FQ.num 1], matthiessen [[FQ.num 2], [FQ.num 3]]] :=
  ⟨C3_matthiessen.1 [2] (by intro q hq; fin_cases hq; norm_num)
      (by simp),
   C3_matthiessen.2.1 [FQ.num 1] (by intro v hv; fin_cases hv; rfl),
   C3_matthiessen.2.2.1 [[FQ.num 0], [FQ.num 2]] 0
      (by intro l hl; fin_cases hl <;> (intro v hv; fin_cases hv <;> rfl))
      (by simp)
      ⟨[FQ.num 0], by simp, rfl⟩,
   C3_matthiessen.2.2.2.1 [FQ.num 1] [FQ.num 2] rfl,
   C3_matthiessen.2.2.2.2 [FQ.num 1] [FQ.num 2] [FQ.num 3]
      (by intro v hv; fin_cases hv; exact ⟨1, rfl, by norm_num⟩)
      (by intro v hv; fin_cases hv; exact ⟨2, rfl, by norm_num⟩)
      (by intro v hv; fin_cases hv; exact ⟨3, rfl, by norm_num⟩)⟩

/-! The filtering sweep. -/

theorem arange_length (a b s : ℚ) :
    (arange a b s).length = ⌈(b - a) / s⌉.toNat := by
  rw [arange, List.length_map, List.length_range]

theorem filteringEffect_error (U0 tau0 uIncrement tauIncrement : ℚ)
    (hu : arange (1 / 10) U0 uIncrement ≠ [])
    (ht : arange tauIncrement tau0 tauIncrement ≠ []) :
    filteringEffect U0 tau0 uIncrement tauIncrement =
      Except.error nameErrorMsg := by
  obtain ⟨u, us, hu'⟩ := List.exists_cons_of_ne_nil hu
  obtain ⟨t, ts, ht'⟩ := List.exists_cons_of_ne_nil ht
  show (loopExcept (arange (1 / 10) U0 uIncrement)
      (loopExcept (arange tauIncrement tau0 tauIncrement)
        (Except.error nameErrorMsg))).bind (fun _ => Except.ok []) =
    Except.error nameErrorMsg
  rw [hu', ht']
  rfl

/-- Claim C6: whenever both sweep ranges of `filteringEffect` (the
barrier range from `0.1` to `U0` in steps of `uIncrement` and the
lifetime range from `tauIncrement` to `tau0` in steps of
`tauIncrement`) are non-empty, the first executed loop body references
the undefined name `Erange`, so the method raises a `NameError` and
never returns a result matrix. -/
theorem C6_filteringEffect_name_error (U0 tau0 uIncrement tauIncrement : ℚ)
    (hu : arange (1 / 10) U0 uIncrement ≠ [])
    (ht : arange tauIncrement tau0 tauIncrement ≠ []) :
    filteringEffect U0 tau0 uIncrement tauIncrement =
      Except.error nameErrorMsg :=
  filteringEffect_error U0 tau0 uIncrement tauIncrement hu ht

/-- Witness for C6: `U0 = 2`, `uIncrement = 1.9` (one barrier value)
and `tau0 = 2`, `tauIncrement = 1` (one lifetime value). -/
theorem C6_filteringEffect_name_error_witness :
    filteringEffect 2 2 (19 / 10) 1 = Except.error nameErrorMsg := by
  apply C6_filteringEffect_name_error
  · have h1 : ((2 : ℚ) - 1 / 10) / (19 / 10) = 1 := by norm_num
    have h2 : (arange (1 / 10) 2 (19 / 10)).length = 1 := by
      rw [arange_length, h1, Int.ceil_one]
      rfl
    intro hnil
    rw [hnil] at h2
    simp at h2
  · have h1 : ((2 : ℚ) - 1) / 1 = 1 := by norm_num
    have h2 : (arange 1 2 1).length = 1 := by
      rw [arange_length, h1, Int.ceil_one]
      rfl
    intro hnil
    rw [hnil] at h2
    simp at h2

/-- Claim C5 fails on the code as written: on this non-empty sweep
(one barrier height, one lifetime step) `filteringEffect` raises
`NameError` instead of returning a rectangular matrix, because its loop
body reads the undefined name `Erange`. -/
theorem C5_filteringEffect_failing :
    filteringEffect 3 4 (29 / 10) 2 = Except.error nameErrorMsg := by
  apply filteringEffect_error
  · have h1 : ((3 : ℚ) - 1 / 10) / (29 / 10) = 1 := by norm_num
    have h2 : (arange (1 / 10) 3 (29 / 10)).length = 1 := by
      rw [arange_length, h1, Int.ceil_one]
      rfl
    intro hnil
    rw [hnil] at h2
    simp at h2
  · have h1 : ((4 : ℚ) - 2) / 2 = 1 := by norm_num
    have h2 : (arange 2 4 2).length = 1 := by
      rw [arange_length, h1, Int.ceil_one]
      rfl
    intro hnil
    rw [hnil] at h2
    simp at h2

/-! Ionized-impurity NaN handling. -/

theorem FR.regular_not_nan {x : FR} (hx : x.regular) : x.isNan = false := by
  rcases hx with ⟨a, rfl, _⟩ | rfl | rfl <;> rfl

theorem FR.div_real_regular {x : FR} (hx : x.regular) (b : ℝ) :
    (x.div (FR.real b)).regular := by
  rcases hx with ⟨a, rfl, ha⟩ | rfl | rfl
  · by_cases hb : b = 0
    · simp only [FR.div, if_pos hb, if_neg ha]
      by_cases hap : 0 < a
      · simp only [if_pos hap]
        exact Or.inr (Or.inl rfl)
      · simp only [if_neg hap]
        exact Or.inr (Or.inr rfl)
    · simp only [FR.div, if_neg hb]
      exact Or.inl ⟨a / b, rfl, div_ne_zero ha hb⟩
  · by_cases hb : b < 0
    · simp only [FR.div, if_pos hb]
      exact Or.inr (Or.inr rfl)
    · simp only [FR.div, if_neg hb]
      exact Or.inr (Or.inl rfl)
  · by_cases hb : b < 0
    · simp only [FR.div, if_pos hb]
      exact Or.inr (Or.inl rfl)
    · simp only [FR.div, if_neg hb]
      exact Or.inr (Or.inr rfl)

theorem FR.mul_real_regular {x : FR} (hx : x.regular) {c : ℝ} (hc : c ≠ 0) :
    (x.mul (FR.real c)).regular := by
  rcases hx with ⟨a, rfl, ha⟩ | rfl | rfl
  · exact Or.inl ⟨a * c, rfl, mul_ne_zero ha hc⟩
  · simp only [FR.mul, if_neg hc]
    by_cases hcp : 0 < c
    · simp only [if_pos hcp]
      exact Or.inr (Or.inl rfl)
    · simp only [if_neg hcp]
      exact Or.inr (Or.inr rfl)
  · simp only [FR.mul, if_neg hc]
    by_cases hcp : 0 < c
    · simp only [if_pos hcp]
      exact Or.inr (Or.inr rfl)
    · simp only [if_neg hcp]
      exact Or.inr (Or.inl rfl)

/-- Claim C7: in the screened and unscreened ionized-impurity routines
a NaN arising in the raw lifetime formula is mapped to exactly zero
before return and the returned value is never NaN; the strongly
screened routine has no mask in the source, but on finite inputs (with
a nonzero dielectric constant) its division chain can never produce a
NaN, so NaN is never propagated by any of the three routines. -/
theorem C7_coulomb_nan (dielectric : ℝ) (hdiel : dielectric ≠ 0) :
    (∀ E m_c LD N : FR,
      ((tau_Screened_Coulomb_raw dielectric E m_c LD N).isNan = true →
        tau_Screened_Coulomb dielectric E m_c LD N = FR.real 0) ∧
      (tau_Screened_Coulomb dielectric E m_c LD N).isNan = false) ∧
    (∀ E m_c N : FR,
      ((tau_Unscreened_Coulomb_raw dielectric E m_c N).isNan = true →
        tau_Unscreened_Coulomb dielectric E m_c N = FR.real 0) ∧
      (tau_Unscreened_Coulomb dielectric E m_c N).isNan = false) ∧
    (∀ d l n : ℝ,
      (tau_Strongly_Screened_Coulomb dielectric (FR.real d) (FR.real l)
        (FR.real n)).isNan = false) := by
  refine ⟨?_, ?_, ?_⟩
  · intro E m_c LD N
    constructor
    · intro h
      rw [tau_Screened_Coulomb, if_pos h]
    · by_cases h : (tau_Screened_Coulomb_raw dielectric E m_c LD N).isNan = true
      · rw [tau_Screened_Coulomb, if_pos h]
        rfl
      · rw [tau_Screened_Coulomb, if_neg h]
        exact Bool.eq_false_iff.mpr h
  · intro E m_c N
    constructor
    · intro h
      rw [tau_Unscreened_Coulomb, if_pos h]
    · by_cases h : (tau_Unscreened_Coulomb_raw dielectric E m_c N).isNan = true
      · rw [tau_Unscreened_Coulomb, if_pos h]
        rfl
      · rw [tau_Unscreened_Coulomb, if_neg h]
        exact Bool.eq_false_iff.mpr h
  · intro d l n
    have hk : (4 * Real.pi * dielectric * e0) ≠ 0 :=
      mul_ne_zero (mul_ne_zero (mul_ne_zero (by norm_num) Real.pi_ne_zero)
        hdiel) (by norm_num [e0])
    have hden : ((FR.real l).sq.div
        (FR.real (4 * Real.pi * dielectric * e0))).sq =
        FR.real (l * l / (4 * Real.pi * dielectric * e0) *
          (l * l / (4 * Real.pi * dielectric * e0))) := by
      simp only [FR.sq, FR.mul, FR.div, if_neg hk]
    have step0 : (FR.real hBar).regular :=
      Or.inl ⟨hBar, rfl, by norm_num [hBar]⟩
    apply FR.regular_not_nan
    rw [tau_Strongly_Screened_Coulomb, hden]
    exact FR.div_real_regular
      (FR.mul_real_regular
        (FR.div_real_regular
          (FR.div_real_regular
            (FR.div_real_regular (FR.div_real_regular step0 n) Real.pi) d) _)
        one_ne_zero) _

/-- Witness for C7 at `dielectric = 11.7` and unit inputs. -/
theorem C7_coulomb_nan_witness :
    (tau_Screened_Coulomb 11.7 (FR.real 1) (FR.real 1) (FR.real 1)
      (FR.real 1)).isNan = false ∧
    (tau_Unscreened_Coulomb 11.7 (FR.real 1) (FR.real 1)
      (FR.real 1)).isNan = false ∧
    (tau_Strongly_Screened_Coulomb 11.7 (FR.real 1) (FR.real 1)
      (FR.real 1)).isNan = false :=
  ⟨((C7_coulomb_nan 11.7 (by norm_num)).1 (FR.real 1) (FR.real 1) (FR.real 1)
      (FR.real 1)).2,
   ((C7_coulomb_nan 11.7 (by norm_num)).2.1 (FR.real 1) (FR.real 1)
      (FR.real 1)).2,
   (C7_coulomb_nan 11.7 (by norm_num)).2.2 1 1 1⟩

/-- Witness for C8 on a one-point grid. -/
theorem C8_tau_p_witness :
    ((tau_p [1] 2 3 4 5 6 [7] 8).2).getD 0 0 =
      ((tau_p [1] 2 3 4 5 6 [7] 8).1).getD 0 0 /
        ((1 - (2 * 1 / (1 + 2 * 2 * 1) * (1 - 3 / 4))) ^ 2 -
          (8 / 3) * (2 * 1) * (1 + 2 * 1) / (1 + 2 * 2 * 1) ^ 2 * (3 / 4)) := by
  simpa using C8_tau_p [1] 2 3 4 5 6 [7] 8 rfl 0

end Thermo
